import Mathlib

/-
Verification of the Cognito note-taking application's note-link
synchronization and graph-derivation model.

The definitions below are shallow embeddings of the TypeScript source:
  - src/types.ts               (Note, Link)
  - src/services/storageService.ts
      (saveNoteToLocal, deleteNoteFromLocal, getNotesFromLocal,
       fetchNotesFromDrive)
  - src/App.tsx                (syncDrive merge, handleDeleteNote,
                                handleRenameSubmit)
  - src/components/Graph.tsx   (link extraction from note contents)
  - src/components/Editor.tsx  (backlinks)

JavaScript strings are modelled as Lean String; `.toLowerCase()`,
`.trim()` and `.includes()` are modelled character-wise (jsToLower,
jsTrim, strIncludes).  A JavaScript Map with string keys is modelled as
an association list with Map semantics: `set` replaces the value of an
existing key in place (keeping its insertion position) and appends a
new key at the end; `get` returns the first (unique) matching entry;
`Array.from(map.values())` is projection to the second components.
-/

namespace Cognito

/-- Note record, from src/types.ts.  `lastModified` is a millisecond
timestamp (a JavaScript number, always a non-negative integer here). -/
structure Note where
  id : String
  title : String
  content : String
  lastModified : Nat
deriving Repr, DecidableEq

/-- Directed graph edge between note ids, from src/types.ts. -/
structure Link where
  source : String
  target : String
deriving Repr, DecidableEq

/-- JavaScript `Map.prototype.set`: replace the value of an existing key
in place, otherwise append the new entry at the end. -/
def jsMapSet {α : Type} (m : List (String × α)) (k : String) (v : α) :
    List (String × α) :=
  if m.any (fun p => p.1 == k) then
    m.map (fun p => if p.1 == k then (k, v) else p)
  else
    m ++ [(k, v)]

/-- JavaScript `Map.prototype.get`: the value of the first entry whose
key matches (keys are unique in maps built by jsMapSet). -/
def jsMapGet {α : Type} (m : List (String × α)) (k : String) : Option α :=
  (m.find? (fun p => p.1 == k)).map Prod.snd

/-- JavaScript `new Map(pairs)`: insert the pairs in order. -/
def jsMapOfPairs {α : Type} (ps : List (String × α)) : List (String × α) :=
  ps.foldl (fun m p => jsMapSet m p.1 p.2) []

/-- JavaScript `String.prototype.toLowerCase()`, character-wise. -/
def jsToLower (s : String) : String := String.mk (s.data.map Char.toLower)

/-- JavaScript `String.prototype.trim()`: strip whitespace from both
ends. -/
def jsTrim (s : String) : String :=
  String.mk (((s.data.dropWhile Char.isWhitespace).reverse.dropWhile
    Char.isWhitespace).reverse)

/-- JavaScript `String.prototype.includes(pat)`: substring containment. -/
def strIncludes (s pat : String) : Bool := decide (pat.data <:+: s.data)

/-- JavaScript `Array.prototype.findIndex`, from the loop in
saveNoteToLocal (src/services/storageService.ts lines 36). -/
def jsFindIndex {α : Type} (p : α → Bool) : List α → Option Nat
  | [] => none
  | a :: l => if p a then some 0 else (jsFindIndex p l).map (· + 1)

/-- saveNoteToLocal, src/services/storageService.ts lines 34-43: replace
the entry whose id matches, else push at the end.  The stored collection
is made explicit as the first argument. -/
def saveNoteToLocal (notes : List Note) (note : Note) : List Note :=
  match jsFindIndex (fun n => n.id == note.id) notes with
  | some index => notes.set index note
  | none => notes ++ [note]

/-- deleteNoteFromLocal, src/services/storageService.ts lines 45-49:
keep the entries whose id differs. -/
def deleteNoteFromLocal (notes : List Note) (id : String) : List Note :=
  notes.filter (fun n => n.id != id)

/-- Outcome of reading the browser's local storage key and running the
host function JSON.parse on it: the key is absent (or the stored string
is empty, which JavaScript treats as falsy), the stored data does not
parse (JSON.parse throws), or it parses to a note array. -/
inductive LocalData where
  | absent
  | corrupt
  | stored (notes : List Note)
deriving Repr, DecidableEq

/-- getNotesFromLocal, src/services/storageService.ts lines 51-59:
`data ? JSON.parse(data) : []` inside try/catch; a parse failure is
caught and yields the empty list. -/
def getNotesFromLocal : LocalData → List Note
  | .absent => []
  | .corrupt => []
  | .stored ns => ns

/-- One element of the JSON array returned by the Drive endpoint; `id`
and `lastModified` may be missing (or falsy) and are then defaulted by
fetchNotesFromDrive. -/
structure RawItem where
  id : Option String
  title : String
  content : String
  lastModified : Option Nat
deriving Repr, DecidableEq

/-- Outcome of the remote GET performed by fetchNotesFromDrive: missing
endpoint URL, network error (fetch throws), non-OK HTTP response, JSON
body that is not an array, or a JSON array of items. -/
inductive FetchOutcome where
  | noEndpoint
  | networkError
  | httpNotOk
  | jsonNotArray
  | jsonArray (items : List RawItem)
deriving Repr, DecidableEq

/-- JavaScript `x || dflt` on an optional string: missing and the empty
string are falsy. -/
def jsOrString (x : Option String) (dflt : String) : String :=
  match x with
  | some s => if s = "" then dflt else s
  | none => dflt

/-- JavaScript `x || dflt` on an optional number: missing and 0 are
falsy. -/
def jsOrNat (x : Option Nat) (dflt : Nat) : Nat :=
  match x with
  | some n => if n = 0 then dflt else n
  | none => dflt

/-- fetchNotesFromDrive, src/services/storageService.ts lines 62-89.
Every failure path (missing endpoint, network error — the catch block —,
non-OK response — thrown then caught —, non-array JSON) returns the
empty list; a JSON array is normalized item by item, defaulting missing
ids (`item.id || crypto.randomUUID()`, modelled by the `freshIds`
parameter) and missing timestamps (`item.lastModified || Date.now()`,
modelled by the `now` parameter). -/
def fetchNotesFromDrive (freshIds : Nat → String) (now : Nat) :
    FetchOutcome → List Note
  | .noEndpoint => []
  | .networkError => []
  | .httpNotOk => []
  | .jsonNotArray => []
  | .jsonArray items =>
      items.enum.map fun p =>
        { id := jsOrString p.2.id (freshIds p.1)
          title := p.2.title
          content := p.2.content
          lastModified := jsOrNat p.2.lastModified now }

/-- Body of the for-loop of syncDrive, src/App.tsx lines 52-68, acting
on the pair (newNoteMap, hasChanges): look the drive note's title up in
the map; if absent, or if the remote timestamp is strictly newer, store
the drive note under that title keeping the existing local id, and set
hasChanges.  (`dNote.lastModified || 0` and `localNote.lastModified || 0`
are the identity on Nat timestamps.) -/
def mergeStep (st : List (String × Note) × Bool) (dNote : Note) :
    List (String × Note) × Bool :=
  match jsMapGet st.1 dNote.title with
  | none => (jsMapSet st.1 dNote.title dNote, true)
  | some localNote =>
      if localNote.lastModified < dNote.lastModified then
        (jsMapSet st.1 dNote.title { dNote with id := localNote.id }, true)
      else st

/-- State update performed by syncDrive, src/App.tsx lines 47-72: when
the drive listing is non-empty, build a title-keyed map of the previous
notes, fold the drive notes through mergeStep, and return the map's
values if anything changed, the previous array otherwise.  An empty
drive listing leaves the collection untouched. -/
def syncMerge (prevNotes driveNotes : List Note) : List Note :=
  if driveNotes.length > 0 then
    let start := jsMapOfPairs (prevNotes.map (fun n => (n.title, n)))
    let res := driveNotes.foldl mergeStep (start, false)
    if res.2 then res.1.map Prod.snd else prevNotes
  else prevNotes

/-- Scanner for the global regex replace loop
`/\[\[(.*?)\]\]/g` of Graph.tsx (lines 49-59), one character at a time.
The second argument is `none` outside a candidate match and
`some acc` after an opening `[[`, with `acc` the capture read so far,
reversed.  The lazy capture closes at the first `]]`; `.` does not match
a newline, so a candidate that reaches a newline (or the end of input)
is abandoned.  Abandoning moves the scan past the blocking newline: no
other match can start inside the abandoned region, because any later
`[[` there would be stopped by the same newline, so this equals the
regex engine's retry at the next position. -/
def scanAux : List Char → Option (List Char) → List (List Char)
  | '[' :: '[' :: rest, none => scanAux rest (some [])
  | ']' :: ']' :: rest, some acc => acc.reverse :: scanAux rest none
  | '\n' :: rest, some _ => scanAux rest none
  | _ :: rest, none => scanAux rest none
  | c :: rest, some acc => scanAux rest (some (c :: acc))
  | [], _ => []

/-- All captures of `/\[\[(.*?)\]\]/g` over a character list, in match
order. -/
def scanLinks (s : List Char) : List (List Char) := scanAux s none

/-- Every entry of the map is keyed by the title of its note. -/
def MapKeyed (m : List (String × Note)) : Prop := ∀ p ∈ m, p.1 = p.2.title

/-- The map has pairwise-distinct keys and every entry is keyed by the
title of its note; both hold for every map syncDrive builds. -/
def MapWF (m : List (String × Note)) : Prop :=
  (m.map Prod.fst).Nodup ∧ MapKeyed m

/-- Capture cap, bracketed as `[[cap]]`, occurs as a substring. -/
def BrInfix (cap l : List Char) : Prop :=
  ('[' :: '[' :: (cap ++ ']' :: ']' :: [])) <:+: l

/-- Invariant relating a scanner state to the captures it can still
emit: from the outside state every capture occurs bracketed in the
remaining input; inside a candidate, a capture may also be the current
accumulator completed by a prefix of the remaining input up to the
closing brackets. -/
def ScanCapSpec (l : List Char) (st : Option (List Char))
    (cap : List Char) : Prop :=
  match st with
  | none => BrInfix cap l
  | some acc =>
      (∃ d post, l = d ++ ']' :: ']' :: post ∧ cap = acc.reverse ++ d) ∨
        BrInfix cap l

/-- The `titleToIdMap` of Graph.tsx lines 43-45: lowercased title to
note id, built by the Map constructor (later notes overwrite earlier
ones on equal lowercased titles). -/
def titleToIdMap (notes : List Note) : List (String × String) :=
  jsMapOfPairs (notes.map (fun n => (jsToLower n.title, n.id)))

/-- Link extraction of Graph.tsx lines 49-59: for each note, scan its
content for `[[...]]` captures, lowercase each capture, look it up in
titleToIdMap, and emit an edge exactly when the lookup succeeds. -/
def extractLinks (notes : List Note) : List Link :=
  notes.flatMap (fun sourceNote =>
    (scanLinks sourceNote.content.data).filterMap (fun cap =>
      (jsMapGet (titleToIdMap notes) (jsToLower (String.mk cap))).map
        (fun targetId => Link.mk sourceNote.id targetId)))

/-- Backlinks of Editor.tsx lines 59-62: the notes, other than the
current one (by id), whose lowercased content contains the exact
substring `[[` ++ lowercased current title ++ `]]`. -/
def backlinksOf (notes : List Note) (note : Note) : List Note :=
  notes.filter (fun n =>
    n.id != note.id &&
    strIncludes (jsToLower n.content) ("[[" ++ jsToLower note.title ++ "]]"))

/-- handleDeleteNote, src/App.tsx lines 149-155: the in-memory update
removes every note whose id equals the deleted note's id. -/
def handleDeleteNote (notes : List Note) (noteToDelete : Note) : List Note :=
  notes.filter (fun n => n.id != noteToDelete.id)

/-- handleRenameSubmit, src/App.tsx lines 598-611 (state update only):
find the note by id; bail out when it is absent, the new title is blank
after trimming, or the edit equals the current title; otherwise replace
that note's title with the trimmed edit and bump lastModified. -/
def handleRenameSubmit (notes : List Note) (noteId : String)
    (editTitle : String) (now : Nat) : List Note :=
  match notes.find? (fun n => n.id == noteId) with
  | none => notes
  | some noteToRename =>
      if jsTrim editTitle = "" then notes
      else if editTitle = noteToRename.title then notes
      else
        notes.map (fun n =>
          if n.id == noteId then
            { noteToRename with title := jsTrim editTitle, lastModified := now }
          else n)

/-! ### Association-list Map lemmas -/

theorem find?_cons_eq {α : Type} (p : α → Bool) (a : α) (l : List α) :
    (a :: l).find? p = if p a then some a else l.find? p := by
  cases h : p a <;> simp [List.find?, h]

theorem find?_map_replace {α : Type} (m : List (String × α)) (k k' : String)
    (v : α) (h : k' ≠ k) :
    (m.map (fun p => if p.1 == k then (k, v) else p)).find?
        (fun p => p.1 == k') =
      m.find? (fun p => p.1 == k') := by
  induction m with
  | nil => rfl
  | cons q m ih =>
    rw [List.map_cons, find?_cons_eq, find?_cons_eq]
    by_cases hq : q.1 = k
    · rw [beq_iff_eq.2 hq]
      have h1 : (((k, v)).1 == k') = false := beq_eq_false_iff_ne.2 (Ne.symm h)
      have h2 : (q.1 == k') = false := by
        rw [hq]; exact beq_eq_false_iff_ne.2 (Ne.symm h)
      simp only [if_true, h1, h2, Bool.false_eq_true, if_false, ih]
    · rw [beq_eq_false_iff_ne.2 hq]
      simp only [Bool.false_eq_true, if_false]
      cases hqk : (q.1 == k') with
      | true => simp
      | false => simp only [Bool.false_eq_true, if_false, ih]

theorem find?_map_replace_self {α : Type} (m : List (String × α))
    (k : String) (v : α) (h : m.any (fun p => p.1 == k) = true) :
    (m.map (fun p => if p.1 == k then (k, v) else p)).find?
        (fun p => p.1 == k) = some (k, v) := by
  induction m with
  | nil => simp at h
  | cons q m ih =>
    by_cases hq : q.1 = k
    · have hqt : (q.1 == k) = true := beq_iff_eq.2 hq
      simp [find?_cons_eq, hqt, hq]
    · have hqf : (q.1 == k) = false := beq_eq_false_iff_ne.2 hq
      rw [List.any_cons, hqf, Bool.false_or] at h
      simp only [List.map_cons, find?_cons_eq, hqf, Bool.false_eq_true,
        if_false]
      exact ih h

theorem jsMapGet_set {α : Type} (m : List (String × α)) (k k' : String)
    (v : α) :
    jsMapGet (jsMapSet m k v) k' =
      if k' = k then some v else jsMapGet m k' := by
  unfold jsMapSet jsMapGet
  by_cases hany : m.any (fun p => p.1 == k) = true
  · rw [if_pos hany]
    by_cases hk : k' = k
    · subst hk
      rw [find?_map_replace_self m k' v hany, if_pos rfl]
      rfl
    · rw [find?_map_replace m k k' v hk, if_neg hk]
  · rw [if_neg hany, List.find?_append]
    have hnone : m.find? (fun p => p.1 == k) = none := by
      rw [List.find?_eq_none]
      intro p hp hpk
      exact hany (List.any_eq_true.2 ⟨p, hp, hpk⟩)
    by_cases hk : k' = k
    · subst hk
      rw [hnone, find?_cons_eq, beq_self_eq_true k']
      simp
    · rw [find?_cons_eq, beq_eq_false_iff_ne.2 (Ne.symm hk)]
      simp only [Bool.false_eq_true, if_false, if_neg hk]
      rw [show List.find? (fun p : String × α => p.1 == k') [] = none from rfl,
        Option.or_none]

theorem jsMapGet_foldl_set {α : Type} (ps : List (String × α))
    (acc : List (String × α)) (k : String) :
    jsMapGet (ps.foldl (fun m p => jsMapSet m p.1 p.2) acc) k =
      ((ps.reverse.find? (fun p => p.1 == k)).map Prod.snd).or
        (jsMapGet acc k) := by
  induction ps generalizing acc with
  | nil => simp
  | cons p ps ih =>
    simp only [List.foldl_cons, List.reverse_cons, List.find?_append]
    rw [ih]
    cases hrev : ps.reverse.find? (fun q => q.1 == k) with
    | some q => simp
    | none =>
      simp only [Option.map_none', Option.none_or]
      rw [jsMapGet_set, find?_cons_eq]
      by_cases hk : k = p.1
      · rw [beq_iff_eq.2 hk.symm, if_pos hk]
        simp
      · rw [beq_eq_false_iff_ne.2 (Ne.symm hk), if_neg hk]
        simp

theorem jsMapGet_ofPairs {α : Type} (ps : List (String × α)) (k : String) :
    jsMapGet (jsMapOfPairs ps) k =
      (ps.reverse.find? (fun p => p.1 == k)).map Prod.snd := by
  unfold jsMapOfPairs
  rw [jsMapGet_foldl_set]
  rw [show jsMapGet ([] : List (String × α)) k = none from rfl, Option.or_none]

theorem find?_reverse_eq {α β : Type} [BEq β] [LawfulBEq β]
    (l : List α) (f : α → β) (k : β) (h : (l.map f).Nodup) :
    l.reverse.find? (fun x => f x == k) = l.find? (fun x => f x == k) := by
  induction l with
  | nil => rfl
  | cons a l ih =>
    simp only [List.map_cons, List.nodup_cons] at h
    obtain ⟨ha, h'⟩ := h
    rw [List.reverse_cons, List.find?_append]
    by_cases hk : f a = k
    · have hnone : l.find? (fun x => f x == k) = none := by
        rw [List.find?_eq_none]
        intro x hx hxk
        exact ha (hk ▸ (beq_iff_eq.1 hxk) ▸ List.mem_map_of_mem f hx)
      have hnone' : l.reverse.find? (fun x => f x == k) = none := by
        rw [List.find?_eq_none]
        intro x hx hxk
        exact (List.find?_eq_none.1 hnone) x (List.mem_reverse.1 hx) hxk
      rw [hnone', Option.none_or]
      have hkt : (f a == k) = true := beq_iff_eq.2 hk
      simp [find?_cons_eq, hkt]
    · have hkf : (f a == k) = false := beq_eq_false_iff_ne.2 hk
      rw [ih h']
      have h1 : List.find? (fun x => f x == k) [a] = none := by
        simp [find?_cons_eq, hkf]
      have h2 : List.find? (fun x => f x == k) (a :: l) =
          List.find? (fun x => f x == k) l := by
        simp [find?_cons_eq, hkf]
      rw [h1, Option.or_none, h2]

theorem find?_eq_some_self {α β : Type} [BEq β] [LawfulBEq β]
    (l : List α) (f : α → β) (x : α) (h : (l.map f).Nodup) (hx : x ∈ l) :
    l.find? (fun y => f y == f x) = some x := by
  induction l with
  | nil => simp at hx
  | cons a l ih =>
    simp only [List.map_cons, List.nodup_cons] at h
    obtain ⟨ha, h'⟩ := h
    rcases List.mem_cons.1 hx with hx | hx
    · subst hx
      simp [find?_cons_eq, beq_self_eq_true]
    · have hax : (f a == f x) = false := by
        rw [beq_eq_false_iff_ne]
        intro e
        exact ha (e ▸ List.mem_map_of_mem f hx)
      simp only [find?_cons_eq, hax, Bool.false_eq_true, if_false]
      exact ih h' hx

theorem jsMapGet_ofPairs_nodup {α : Type} (ps : List (String × α))
    (k : String) (h : (ps.map Prod.fst).Nodup) :
    jsMapGet (jsMapOfPairs ps) k =
      (ps.find? (fun p => p.1 == k)).map Prod.snd := by
  rw [jsMapGet_ofPairs, find?_reverse_eq ps Prod.fst k h]

theorem jsMapGet_ofPairs_mem {α : Type} (ps : List (String × α))
    (k : String) (v : α) (h : jsMapGet (jsMapOfPairs ps) k = some v) :
    ∃ p ∈ ps, p.1 = k ∧ p.2 = v := by
  rw [jsMapGet_ofPairs] at h
  rcases Option.map_eq_some'.1 h with ⟨p, hp, hpv⟩
  refine ⟨p, List.mem_reverse.1 (List.mem_of_find?_eq_some hp), ?_, hpv⟩
  have := List.find?_some hp
  exact beq_iff_eq.1 this

theorem jsMapGet_ofPairs_none {α : Type} (ps : List (String × α))
    (k : String) (h : ∀ p ∈ ps, p.1 ≠ k) :
    jsMapGet (jsMapOfPairs ps) k = none := by
  rw [jsMapGet_ofPairs]
  have hn : ps.reverse.find? (fun p => p.1 == k) = none := by
    rw [List.find?_eq_none]
    intro p hp hpk
    exact h p (List.mem_reverse.1 hp) (beq_iff_eq.1 hpk)
  rw [hn]
  rfl

/-! ### Well-formed title-keyed note maps and merge lemmas -/

theorem MapWF_nil : MapWF [] := by
  constructor
  · exact List.nodup_nil
  · intro p hp
    simp at hp

theorem MapWF_set (m : List (String × Note)) (k : String) (v : Note)
    (h : MapWF m) (hv : v.title = k) : MapWF (jsMapSet m k v) := by
  unfold jsMapSet
  by_cases hany : m.any (fun p => p.1 == k) = true
  · rw [if_pos hany]
    constructor
    · have hkeys :
          (m.map (fun p => if p.1 == k then (k, v) else p)).map Prod.fst =
            m.map Prod.fst := by
        rw [List.map_map]
        apply List.map_congr_left
        intro p hp
        by_cases hpk : p.1 = k
        · simp [Function.comp, beq_iff_eq.2 hpk, hpk]
        · simp [Function.comp, beq_eq_false_iff_ne.2 hpk]
      rw [hkeys]
      exact h.1
    · intro p' hp'
      rcases List.mem_map.1 hp' with ⟨p, hp, rfl⟩
      by_cases hpk : p.1 = k
      · simp only [beq_iff_eq.2 hpk, if_true]
        exact hv.symm
      · simp only [beq_eq_false_iff_ne.2 hpk, Bool.false_eq_true, if_false]
        exact h.2 p hp
  · rw [if_neg hany]
    constructor
    · rw [List.map_append, List.nodup_append]
      refine ⟨h.1, by simp, ?_⟩
      intro x hx hx'
      simp only [List.map_cons, List.map_nil, List.mem_singleton] at hx'
      subst hx'
      rcases List.mem_map.1 hx with ⟨p, hp, hpk⟩
      exact hany (List.any_eq_true.2 ⟨p, hp, beq_iff_eq.2 hpk⟩)
    · intro p hp
      rcases List.mem_append.1 hp with hp | hp
      · exact h.2 p hp
      · simp only [List.mem_singleton] at hp
        subst hp
        exact hv.symm

theorem MapWF_foldl_set (l : List Note) (acc : List (String × Note))
    (h : MapWF acc) :
    MapWF (l.foldl (fun m n => jsMapSet m n.title n) acc) := by
  induction l generalizing acc with
  | nil => exact h
  | cons n l ih => exact ih _ (MapWF_set acc n.title n h rfl)

theorem MapWF_ofNotes (l : List Note) :
    MapWF (jsMapOfPairs (l.map fun n => (n.title, n))) := by
  unfold jsMapOfPairs
  rw [List.foldl_map]
  exact MapWF_foldl_set l [] MapWF_nil

theorem jsMapGet_keyed_title (m : List (String × Note)) (t : String)
    (e : Note) (hk : MapKeyed m) (h : jsMapGet m t = some e) :
    e.title = t := by
  unfold jsMapGet at h
  rcases Option.map_eq_some'.1 h with ⟨p, hp, hpe⟩
  have h1b := @List.find?_some _ (fun q : String × Note => q.1 == t) p m hp
  have h1 : p.1 = t := beq_iff_eq.1 h1b
  have h2 : p.1 = p.2.title := hk p (List.mem_of_find?_eq_some hp)
  rw [← hpe, ← h2, h1]

theorem jsMapGet_mem_values (m : List (String × Note)) (t : String)
    (e : Note) (h : jsMapGet m t = some e) : e ∈ m.map Prod.snd := by
  unfold jsMapGet at h
  rcases Option.map_eq_some'.1 h with ⟨p, hp, hpe⟩
  exact hpe ▸ List.mem_map_of_mem Prod.snd (List.mem_of_find?_eq_some hp)

theorem jsMapGet_eq_find?_values (m : List (String × Note))
    (hk : MapKeyed m) (t : String) :
    jsMapGet m t = (m.map Prod.snd).find? (fun n => n.title == t) := by
  induction m with
  | nil => rfl
  | cons p m ih =>
    have hpt : p.1 = p.2.title := hk p (List.mem_cons_self p m)
    have ih' := ih (fun q hq => hk q (List.mem_cons_of_mem p hq))
    unfold jsMapGet
    rw [List.map_cons, find?_cons_eq, find?_cons_eq, hpt]
    by_cases hc : (p.2.title == t) = true
    · rw [hc]
      simp
    · have hcf : (p.2.title == t) = false := by
        cases hcc : (p.2.title == t) with
        | true => exact absurd hcc hc
        | false => rfl
      rw [hcf]
      simp only [Bool.false_eq_true, if_false]
      exact ih'

theorem jsMapGet_rebuild (m : List (String × Note)) (h : MapWF m)
    (t : String) :
    jsMapGet (jsMapOfPairs ((m.map Prod.snd).map (fun n => (n.title, n)))) t
      = jsMapGet m t := by
  have hkeys :
      (((m.map Prod.snd).map (fun n => (n.title, n))).map Prod.fst) =
        m.map Prod.fst := by
    rw [List.map_map, List.map_map]
    apply List.map_congr_left
    intro p hp
    exact (h.2 p hp).symm
  have hnodup :
      (((m.map Prod.snd).map (fun n => (n.title, n))).map Prod.fst).Nodup := by
    rw [hkeys]
    exact h.1
  rw [jsMapGet_ofPairs_nodup _ t hnodup, List.find?_map,
    jsMapGet_eq_find?_values m h.2 t]
  have hpred :
      ((fun p : String × Note => p.1 == t) ∘ (fun n : Note => (n.title, n))) =
        (fun n : Note => n.title == t) := rfl
  rw [hpred]
  cases hf : (m.map Prod.snd).find? (fun n => n.title == t) <;> simp [hf]

/-! ### mergeStep equations and invariants -/

theorem mergeStep_none (st : List (String × Note) × Bool) (d : Note)
    (h : jsMapGet st.1 d.title = none) :
    mergeStep st d = (jsMapSet st.1 d.title d, true) := by
  unfold mergeStep
  rw [h]

theorem mergeStep_newer (st : List (String × Note) × Bool) (d l : Note)
    (h : jsMapGet st.1 d.title = some l)
    (hlt : l.lastModified < d.lastModified) :
    mergeStep st d = (jsMapSet st.1 d.title { d with id := l.id }, true) := by
  unfold mergeStep
  rw [h]
  exact if_pos hlt

theorem mergeStep_stale (st : List (String × Note) × Bool) (d l : Note)
    (h : jsMapGet st.1 d.title = some l)
    (hlt : ¬ l.lastModified < d.lastModified) :
    mergeStep st d = st := by
  unfold mergeStep
  rw [h]
  exact if_neg hlt

theorem mergeStep_wf (st : List (String × Note) × Bool) (d : Note)
    (h : MapWF st.1) : MapWF (mergeStep st d).1 := by
  cases hget : jsMapGet st.1 d.title with
  | none =>
    rw [mergeStep_none st d hget]
    exact MapWF_set st.1 d.title d h rfl
  | some l =>
    by_cases hlt : l.lastModified < d.lastModified
    · rw [mergeStep_newer st d l hget hlt]
      exact MapWF_set st.1 d.title { d with id := l.id } h rfl
    · rw [mergeStep_stale st d l hget hlt]
      exact h

theorem mergeStep_get_mono (st : List (String × Note) × Bool) (d : Note)
    (t : String) (e : Note) (hk : MapKeyed st.1)
    (h : jsMapGet st.1 t = some e) :
    ∃ e2, jsMapGet (mergeStep st d).1 t = some e2 ∧
      e.lastModified ≤ e2.lastModified ∧ e2.id = e.id ∧
      e2.title = e.title := by
  by_cases hdt : t = d.title
  · subst hdt
    by_cases hlt : e.lastModified < d.lastModified
    · rw [mergeStep_newer st d e h hlt]
      refine ⟨{ d with id := e.id }, ?_, le_of_lt hlt, rfl, ?_⟩
      · rw [jsMapGet_set]
        simp
      · exact (jsMapGet_keyed_title st.1 _ e hk h).symm
    · rw [mergeStep_stale st d e h hlt]
      exact ⟨e, h, le_refl _, rfl, rfl⟩
  · cases hget : jsMapGet st.1 d.title with
    | none =>
      rw [mergeStep_none st d hget]
      refine ⟨e, ?_, le_refl _, rfl, rfl⟩
      rw [jsMapGet_set, if_neg hdt]
      exact h
    | some l =>
      by_cases hlt : l.lastModified < d.lastModified
      · rw [mergeStep_newer st d l hget hlt]
        refine ⟨e, ?_, le_refl _, rfl, rfl⟩
        rw [jsMapGet_set, if_neg hdt]
        exact h
      · rw [mergeStep_stale st d l hget hlt]
        exact ⟨e, h, le_refl _, rfl, rfl⟩

theorem mergeStep_get_self (st : List (String × Note) × Bool) (d : Note) :
    ∃ e, jsMapGet (mergeStep st d).1 d.title = some e ∧
      d.lastModified ≤ e.lastModified := by
  cases hget : jsMapGet st.1 d.title with
  | none =>
    rw [mergeStep_none st d hget]
    refine ⟨d, ?_, le_refl _⟩
    rw [jsMapGet_set]
    simp
  | some l =>
    by_cases hlt : l.lastModified < d.lastModified
    · rw [mergeStep_newer st d l hget hlt]
      refine ⟨{ d with id := l.id }, ?_, le_refl _⟩
      rw [jsMapGet_set]
      simp
    · rw [mergeStep_stale st d l hget hlt]
      exact ⟨l, hget, le_of_not_lt hlt⟩

theorem mergeFold_wf (ds : List Note) (st : List (String × Note) × Bool)
    (h : MapWF st.1) : MapWF ((ds.foldl mergeStep st).1) := by
  induction ds generalizing st with
  | nil => exact h
  | cons d ds ih => exact ih (mergeStep st d) (mergeStep_wf st d h)

theorem mergeFold_get_mono (ds : List Note)
    (st : List (String × Note) × Bool) (t : String) (e : Note)
    (h : MapWF st.1) (hget : jsMapGet st.1 t = some e) :
    ∃ e2, jsMapGet ((ds.foldl mergeStep st).1) t = some e2 ∧
      e.lastModified ≤ e2.lastModified ∧ e2.id = e.id ∧
      e2.title = e.title := by
  induction ds generalizing st e with
  | nil => exact ⟨e, hget, le_refl _, rfl, rfl⟩
  | cons d ds ih =>
    rcases mergeStep_get_mono st d t e h.2 hget with
      ⟨e1, h1, hle1, hid1, hti1⟩
    rcases ih (mergeStep st d) e1 (mergeStep_wf st d h) h1 with
      ⟨e2, h2, hle2, hid2, hti2⟩
    exact ⟨e2, h2, le_trans hle1 hle2, hid2.trans hid1, hti2.trans hti1⟩

theorem mergeFold_covers (ds : List Note)
    (st : List (String × Note) × Bool) (h : MapWF st.1) (d : Note)
    (hd : d ∈ ds) :
    ∃ e, jsMapGet ((ds.foldl mergeStep st).1) d.title = some e ∧
      d.lastModified ≤ e.lastModified := by
  induction ds generalizing st with
  | nil => simp at hd
  | cons d0 ds ih =>
    rw [List.foldl_cons]
    rcases List.mem_cons.1 hd with he | hd'
    · subst he
      rcases mergeStep_get_self st d with ⟨e1, h1, hle1⟩
      rcases mergeFold_get_mono ds (mergeStep st d) d.title e1
        (mergeStep_wf st d h) h1 with ⟨e2, h2, hle2, _, _⟩
      exact ⟨e2, h2, le_trans hle1 hle2⟩
    · exact ih (mergeStep st d0) (mergeStep_wf st d0 h) hd'

theorem mergeFold_noop (ds : List Note) (st : List (String × Note) × Bool)
    (h : ∀ d ∈ ds, ∃ e, jsMapGet st.1 d.title = some e ∧
      ¬ e.lastModified < d.lastModified) :
    ds.foldl mergeStep st = st := by
  induction ds with
  | nil => rfl
  | cons d ds ih =>
    rcases h d (List.mem_cons_self d ds) with ⟨e, he, hlt⟩
    rw [List.foldl_cons, mergeStep_stale st d e he hlt]
    exact ih (fun d' hd' => h d' (List.mem_cons_of_mem d hd'))

theorem syncMerge_pos (prev drive : List Note) (h : drive.length > 0) :
    syncMerge prev drive =
      if (drive.foldl mergeStep
          (jsMapOfPairs (prev.map fun n => (n.title, n)), false)).2 then
        ((drive.foldl mergeStep
          (jsMapOfPairs (prev.map fun n => (n.title, n)), false)).1).map
          Prod.snd
      else prev := by
  unfold syncMerge
  rw [if_pos h]

theorem syncMerge_zero (prev drive : List Note) (h : ¬ drive.length > 0) :
    syncMerge prev drive = prev := by
  unfold syncMerge
  rw [if_neg h]

theorem startMap_get (prev : List Note) (hd : (prev.map Note.title).Nodup)
    (L : Note) (hL : L ∈ prev) :
    jsMapGet (jsMapOfPairs (prev.map fun n => (n.title, n))) L.title =
      some L := by
  have hkeys : ((prev.map fun n => (n.title, n)).map Prod.fst).Nodup := by
    rw [List.map_map]
    exact hd
  rw [jsMapGet_ofPairs_nodup _ _ hkeys]
  have hmem : (L.title, L) ∈ prev.map fun n => (n.title, n) :=
    List.mem_map_of_mem (fun n => (n.title, n)) hL
  have hfind := find?_eq_some_self (prev.map fun n => (n.title, n))
    Prod.fst (L.title, L) hkeys hmem
  rw [hfind]
  rfl

/-- C1: merge timestamp rule.  For a local collection with distinct
titles containing note L, and a remote listing consisting of note R with
the same title: if R is strictly newer, the merged collection's entry
for that title is R's data with L's id (in particular its content is
R.content); otherwise the merge returns the local collection unchanged,
so the entry is L itself. -/
theorem merge_timestamp_rule (prev : List Note) (L R : Note)
    (hd : (prev.map Note.title).Nodup) (hL : L ∈ prev)
    (ht : R.title = L.title) :
    (L.lastModified < R.lastModified →
      (syncMerge prev [R]).find? (fun n => n.title == L.title) =
        some { R with id := L.id }) ∧
    (R.lastModified ≤ L.lastModified → syncMerge prev [R] = prev) := by
  have hstart :
      jsMapGet (jsMapOfPairs (prev.map fun n => (n.title, n))) R.title =
        some L := by
    rw [ht]
    exact startMap_get prev hd L hL
  have hlen : ([R] : List Note).length > 0 := by simp
  constructor
  · intro hlt
    rw [syncMerge_pos prev [R] hlen]
    simp only [List.foldl_cons, List.foldl_nil]
    rw [mergeStep_newer (jsMapOfPairs (prev.map fun n => (n.title, n)), false)
      R L hstart hlt]
    dsimp only
    rw [if_pos rfl]
    have hwf : MapWF (jsMapSet (jsMapOfPairs (prev.map fun n => (n.title, n)))
        R.title { R with id := L.id }) :=
      MapWF_set _ R.title { R with id := L.id } (MapWF_ofNotes prev) rfl
    rw [← jsMapGet_eq_find?_values _ hwf.2 L.title, ← ht, jsMapGet_set,
      if_pos rfl]
  · intro hge
    rw [syncMerge_pos prev [R] hlen]
    simp only [List.foldl_cons, List.foldl_nil]
    rw [mergeStep_stale (jsMapOfPairs (prev.map fun n => (n.title, n)), false)
      R L hstart (not_lt.2 hge)]
    dsimp only
    rw [if_neg Bool.false_ne_true]

/-- C1 witness: with local note id 1 / title A / timestamp 100, a remote
note timestamped 200 wins and keeps the local id, while a remote note
timestamped 50 leaves the collection unchanged. -/
theorem merge_timestamp_rule_witness :
    ((syncMerge [Note.mk "1" "A" "old" 100] [Note.mk "9" "A" "new" 200]).find?
        (fun n => n.title == "A") = some (Note.mk "1" "A" "new" 200)) ∧
    syncMerge [Note.mk "1" "A" "old" 100] [Note.mk "9" "A" "stale" 50] =
      [Note.mk "1" "A" "old" 100] := by
  constructor
  · exact (merge_timestamp_rule [Note.mk "1" "A" "old" 100]
      (Note.mk "1" "A" "old" 100) (Note.mk "9" "A" "new" 200)
      (by decide) (by decide) rfl).1 (by decide)
  · exact (merge_timestamp_rule [Note.mk "1" "A" "old" 100]
      (Note.mk "1" "A" "old" 100) (Note.mk "9" "A" "stale" 50)
      (by decide) (by decide) rfl).2 (by decide)

/-- C3: merge idempotence.  Applying syncDrive's merge with the same
remote snapshot twice yields the same collection as applying it once
(for every local collection and every snapshot). -/
theorem merge_idempotent (prev drive : List Note) :
    syncMerge (syncMerge prev drive) drive = syncMerge prev drive := by
  by_cases hlen : drive.length > 0
  · have hwf0 : MapWF (jsMapOfPairs (prev.map fun n => (n.title, n))) :=
      MapWF_ofNotes prev
    have hfirst := syncMerge_pos prev drive hlen
    cases hch : (drive.foldl mergeStep
        (jsMapOfPairs (prev.map fun n => (n.title, n)), false)).2 with
    | false =>
      have h1 : syncMerge prev drive = prev := by
        rw [hfirst, hch, if_neg Bool.false_ne_true]
      rw [h1]
      exact h1
    | true =>
      have h1 : syncMerge prev drive =
          ((drive.foldl mergeStep
            (jsMapOfPairs (prev.map fun n => (n.title, n)), false)).1).map
            Prod.snd := by
        rw [hfirst, hch, if_pos rfl]
      have hwfres : MapWF ((drive.foldl mergeStep
          (jsMapOfPairs (prev.map fun n => (n.title, n)), false)).1) :=
        mergeFold_wf drive _ hwf0
      rw [h1, syncMerge_pos _ drive hlen]
      have hnoop : drive.foldl mergeStep
          (jsMapOfPairs ((((drive.foldl mergeStep
            (jsMapOfPairs (prev.map fun n => (n.title, n)), false)).1).map
              Prod.snd).map fun n => (n.title, n)), false) =
          (jsMapOfPairs ((((drive.foldl mergeStep
            (jsMapOfPairs (prev.map fun n => (n.title, n)), false)).1).map
              Prod.snd).map fun n => (n.title, n)), false) := by
        apply mergeFold_noop
        intro d hd
        rcases mergeFold_covers drive
          (jsMapOfPairs (prev.map fun n => (n.title, n)), false) hwf0 d hd
          with ⟨e, he, hle⟩
        refine ⟨e, ?_, not_lt.2 hle⟩
        rw [jsMapGet_rebuild _ hwfres d.title]
        exact he
      rw [hnoop]
      dsimp only
      rw [if_neg Bool.false_ne_true]
  · have h0 : syncMerge prev drive = prev := syncMerge_zero prev drive hlen
    rw [h0]
    exact h0

/-- C4: failed-fetch atomicity.  On a network error, a non-OK HTTP
response, or a non-array JSON body, fetchNotesFromDrive returns the
empty listing, and the syncDrive merge applied to that empty listing
leaves the local collection exactly as it was. -/
theorem fetch_fail_soft (freshIds : Nat → String) (now : Nat)
    (prev : List Note) (o : FetchOutcome)
    (h : o = FetchOutcome.networkError ∨ o = FetchOutcome.httpNotOk ∨
      o = FetchOutcome.jsonNotArray) :
    fetchNotesFromDrive freshIds now o = [] ∧
    syncMerge prev (fetchNotesFromDrive freshIds now o) = prev := by
  have hempty : fetchNotesFromDrive freshIds now o = [] := by
    rcases h with h | h | h <;> (rw [h]; rfl)
  refine ⟨hempty, ?_⟩
  rw [hempty]
  exact syncMerge_zero prev [] (by simp)

/-- C4 witness: a network error leaves a concrete one-note local
collection untouched. -/
theorem fetch_fail_soft_witness :
    fetchNotesFromDrive (fun _ => "u") 0 FetchOutcome.networkError = [] ∧
    syncMerge [Note.mk "1" "A" "c" 5]
      (fetchNotesFromDrive (fun _ => "u") 0 FetchOutcome.networkError) =
      [Note.mk "1" "A" "c" 5] :=
  fetch_fail_soft (fun _ => "u") 0 [Note.mk "1" "A" "c" 5]
    FetchOutcome.networkError (Or.inl rfl)

/-- C5: additive merge invariant.  For a local collection with distinct
titles, the syncDrive merge never drops a local note: every note present
before is represented afterwards by a note with the same id and the same
title (its content may have been replaced by newer remote content). -/
theorem merge_additive (prev drive : List Note)
    (hd : (prev.map Note.title).Nodup) (L : Note) (hL : L ∈ prev) :
    ∃ N ∈ syncMerge prev drive, N.id = L.id ∧ N.title = L.title := by
  by_cases hlen : drive.length > 0
  · rw [syncMerge_pos prev drive hlen]
    cases hch : (drive.foldl mergeStep
        (jsMapOfPairs (prev.map fun n => (n.title, n)), false)).2 with
    | false =>
      rw [if_neg Bool.false_ne_true]
      exact ⟨L, hL, rfl, rfl⟩
    | true =>
      rw [if_pos rfl]
      have hstart := startMap_get prev hd L hL
      rcases mergeFold_get_mono drive
        (jsMapOfPairs (prev.map fun n => (n.title, n)), false) L.title L
        (MapWF_ofNotes prev) hstart with ⟨e2, hget2, _, hid2, hti2⟩
      exact ⟨e2, jsMapGet_mem_values _ L.title e2 hget2, hid2, hti2⟩
  · rw [syncMerge_zero prev drive hlen]
    exact ⟨L, hL, rfl, rfl⟩

/-- C5 witness: a remote listing with an unrelated title keeps the
existing local note (id and title), while adding the remote one. -/
theorem merge_additive_witness :
    ∃ N ∈ syncMerge [Note.mk "1" "A" "body" 3] [Note.mk "7" "B" "other" 9],
      N.id = (Note.mk "1" "A" "body" 3).id ∧
      N.title = (Note.mk "1" "A" "body" 3).title :=
  merge_additive [Note.mk "1" "A" "body" 3] [Note.mk "7" "B" "other" 9]
    (by decide) (Note.mk "1" "A" "body" 3) (by decide)

/-! ### Scanner soundness and link-extraction lemmas -/

theorem isInfix_map {α β : Type} (f : α → β) {l1 l2 : List α}
    (h : l1 <:+: l2) : l1.map f <:+: l2.map f := by
  rcases h with ⟨s, t, rfl⟩
  exact ⟨s.map f, t.map f, by simp⟩

theorem scanAux_sound (l : List Char) (st : Option (List Char))
    (cap : List Char) (h : cap ∈ scanAux l st) : ScanCapSpec l st cap := by
  revert cap
  induction l, st using scanAux.induct
  case _ rest IH =>
    intro cap h
    rw [scanAux.eq_1] at h
    have hs := IH cap h
    simp only [ScanCapSpec] at hs ⊢
    rcases hs with ⟨d, post, hrest, hcap⟩ | hinf
    · subst hrest
      simp only [List.reverse_nil, List.nil_append] at hcap
      subst hcap
      exact ⟨[], post, by simp⟩
    · exact List.infix_cons (List.infix_cons hinf)
  case _ rest acc IH =>
    intro cap h
    rw [scanAux.eq_2] at h
    simp only [ScanCapSpec]
    rcases List.mem_cons.1 h with he | h'
    · subst he
      exact Or.inl ⟨[], rest, by simp, by simp⟩
    · have hs := IH cap h'
      simp only [ScanCapSpec] at hs
      exact Or.inr (List.infix_cons (List.infix_cons hs))
  case _ rest val IH =>
    intro cap h
    rw [scanAux.eq_3] at h
    have hs := IH cap h
    simp only [ScanCapSpec] at hs ⊢
    exact Or.inr (List.infix_cons hs)
  case _ head rest hno IH =>
    intro cap h
    rw [scanAux.eq_4 head rest hno] at h
    have hs := IH cap h
    simp only [ScanCapSpec] at hs ⊢
    exact List.infix_cons hs
  case _ c rest acc h1 h2 IH =>
    intro cap h
    rw [scanAux.eq_5 c rest acc h1 h2] at h
    have hs := IH cap h
    simp only [ScanCapSpec] at hs ⊢
    rcases hs with ⟨d, post, hrest, hcap⟩ | hinf
    · refine Or.inl ⟨c :: d, post, ?_, ?_⟩
      · rw [hrest]
        rfl
      · rw [hcap, List.reverse_cons, List.append_assoc,
          List.singleton_append]
    · exact Or.inr (List.infix_cons hinf)
  case _ st =>
    intro cap h
    rw [scanAux.eq_6] at h
    exact absurd h (List.not_mem_nil cap)

theorem scanLinks_occurs (s : List Char) (cap : List Char)
    (h : cap ∈ scanLinks s) :
    ('[' :: '[' :: (cap ++ ']' :: ']' :: [])) <:+: s := by
  have hs := scanAux_sound s none cap h
  simpa only [ScanCapSpec, BrInfix] using hs

theorem mem_extractLinks (notes : List Note) (a b : String) :
    Link.mk a b ∈ extractLinks notes ↔
      ∃ src ∈ notes, src.id = a ∧ ∃ cap ∈ scanLinks src.content.data,
        jsMapGet (titleToIdMap notes) (jsToLower (String.mk cap)) =
          some b := by
  unfold extractLinks
  rw [List.mem_flatMap]
  constructor
  · rintro ⟨src, hsrc, hmem⟩
    rcases List.mem_filterMap.1 hmem with ⟨cap, hcap, heq⟩
    rcases Option.map_eq_some'.1 heq with ⟨tid, hget, hlink⟩
    injection hlink with hsa htb
    exact ⟨src, hsrc, hsa, cap, hcap, htb ▸ hget⟩
  · rintro ⟨src, hsrc, hsa, cap, hcap, hget⟩
    subst hsa
    refine ⟨src, hsrc, List.mem_filterMap.2 ⟨cap, hcap, ?_⟩⟩
    rw [hget]
    rfl

theorem titleToIdMap_get_mem (notes : List Note) (k tid : String)
    (h : jsMapGet (titleToIdMap notes) k = some tid) :
    ∃ M ∈ notes, jsToLower M.title = k ∧ M.id = tid := by
  unfold titleToIdMap at h
  rcases jsMapGet_ofPairs_mem _ k tid h with ⟨p, hp, hk, hv⟩
  rcases List.mem_map.1 hp with ⟨M, hM, rfl⟩
  exact ⟨M, hM, hk, hv⟩

theorem titleToIdMap_get_self (notes : List Note)
    (hti : (notes.map (fun n => jsToLower n.title)).Nodup)
    (M : Note) (hM : M ∈ notes) :
    jsMapGet (titleToIdMap notes) (jsToLower M.title) = some M.id := by
  unfold titleToIdMap
  have hkeys :
      ((notes.map fun n => (jsToLower n.title, n.id)).map Prod.fst).Nodup := by
    rw [List.map_map]
    exact hti
  rw [jsMapGet_ofPairs_nodup _ _ hkeys]
  have hmem : (jsToLower M.title, M.id) ∈
      notes.map fun n => (jsToLower n.title, n.id) :=
    List.mem_map_of_mem _ hM
  have hfind := find?_eq_some_self _ Prod.fst (jsToLower M.title, M.id)
    hkeys hmem
  rw [hfind]
  rfl

theorem titleToIdMap_get_none (notes : List Note) (k : String)
    (h : ∀ Y ∈ notes, jsToLower Y.title ≠ k) :
    jsMapGet (titleToIdMap notes) k = none := by
  unfold titleToIdMap
  apply jsMapGet_ofPairs_none
  intro p hp
  rcases List.mem_map.1 hp with ⟨Y, hY, rfl⟩
  exact h Y hY

theorem extractLinks_target_mem (notes : List Note) (e : Link)
    (h : e ∈ extractLinks notes) : ∃ m ∈ notes, e.target = m.id := by
  unfold extractLinks at h
  rcases List.mem_flatMap.1 h with ⟨src, hsrc, hmem⟩
  rcases List.mem_filterMap.1 hmem with ⟨cap, hcap, heq⟩
  rcases Option.map_eq_some'.1 heq with ⟨tid, hget, hlink⟩
  rcases titleToIdMap_get_mem notes _ tid hget with ⟨m, hm, _, hmid⟩
  refine ⟨m, hm, ?_⟩
  rw [← hlink]
  exact hmid.symm

/-- C2 counterexample: with the two distinct-titled notes
(id 1, title N, content double-bracket x double-bracket M close-close)
and (id 2, title M), the content does contain the substring
`[[M]]` case-insensitively and M is in the set, yet no edge 1→2 is
emitted: the lazy regex matches from the first `[[`, capturing `x[[M`,
which resolves to no title.  This refutes the claimed
containment-implies-edge direction. -/
theorem extractLinks_edge_cex :
    (Note.mk "1" "N" "[[x[[M]]" 0).title ≠ (Note.mk "2" "M" "" 0).title ∧
    strIncludes (jsToLower (Note.mk "1" "N" "[[x[[M]]" 0).content)
      ("[[" ++ jsToLower (Note.mk "2" "M" "" 0).title ++ "]]") = true ∧
    Link.mk "1" "2" ∉
      extractLinks [Note.mk "1" "N" "[[x[[M]]" 0, Note.mk "2" "M" "" 0] := by
  decide

/-- C2 (amended): for a note set with pairwise-distinct ids and
pairwise-distinct lowercased titles, the graph emits an edge N→M iff
the lazy double-bracket scan of N.content yields a capture equal,
case-insensitively, to M.title (captures stop at the first close pair
and never span a newline); substring containment of the bracketed title
is necessary for an edge — every emitted edge's lowercased content
contains the lowercased bracketed title — but not sufficient. -/
theorem extractLinks_edge_scan_iff (notes : List Note)
    (hid : (notes.map Note.id).Nodup)
    (hti : (notes.map (fun n => jsToLower n.title)).Nodup)
    (N M : Note) (hN : N ∈ notes) (hM : M ∈ notes) :
    (Link.mk N.id M.id ∈ extractLinks notes ↔
      ∃ cap ∈ scanLinks N.content.data,
        jsToLower (String.mk cap) = jsToLower M.title) ∧
    (Link.mk N.id M.id ∈ extractLinks notes →
      ('[' :: '[' :: ((jsToLower M.title).data ++ ']' :: ']' :: [])) <:+:
        (jsToLower N.content).data) := by
  have hiff : Link.mk N.id M.id ∈ extractLinks notes ↔
      ∃ cap ∈ scanLinks N.content.data,
        jsToLower (String.mk cap) = jsToLower M.title := by
    constructor
    · intro hmem
      rcases (mem_extractLinks notes N.id M.id).1 hmem with
        ⟨src, hsrc, hsa, cap, hcap, hget⟩
      have hsrcN : src = N := List.inj_on_of_nodup_map hid hsrc hN hsa
      subst hsrcN
      rcases titleToIdMap_get_mem notes _ M.id hget with
        ⟨M2, hM2, hM2k, hM2id⟩
      have hMM : M2 = M := List.inj_on_of_nodup_map hid hM2 hM hM2id
      subst hMM
      exact ⟨cap, hcap, hM2k.symm⟩
    · rintro ⟨cap, hcap, hlow⟩
      refine (mem_extractLinks notes N.id M.id).2
        ⟨N, hN, rfl, cap, hcap, ?_⟩
      rw [hlow]
      exact titleToIdMap_get_self notes hti M hM
  refine ⟨hiff, ?_⟩
  intro hmem
  rcases hiff.1 hmem with ⟨cap, hcap, hlow⟩
  have hinf := isInfix_map Char.toLower
    (scanLinks_occurs N.content.data cap hcap)
  have c1 : Char.toLower '[' = '[' := by decide
  have c2 : Char.toLower ']' = ']' := by decide
  have hpat : ('[' :: '[' :: (cap ++ ']' :: ']' :: [])).map Char.toLower =
      '[' :: '[' :: ((jsToLower (String.mk cap)).data ++ ']' :: ']' :: []) := by
    simp [jsToLower, List.map_append, c1, c2]
  rw [hpat, congrArg String.data hlow] at hinf
  exact hinf

/-- C2 witness: note Alpha (id 1) containing a bracket reference to
Beta yields the edge 1→2 via the amended criterion. -/
theorem extractLinks_edge_scan_iff_witness :
    Link.mk "1" "2" ∈ extractLinks
      [Note.mk "1" "Alpha" "See [[Beta]]" 0, Note.mk "2" "Beta" "" 0] := by
  have h := extractLinks_edge_scan_iff
    [Note.mk "1" "Alpha" "See [[Beta]]" 0, Note.mk "2" "Beta" "" 0]
    (by decide) (by decide)
    (Note.mk "1" "Alpha" "See [[Beta]]" 0) (Note.mk "2" "Beta" "" 0)
    (by decide) (by decide)
  exact h.1.mpr ⟨"Beta".data, by decide, by decide⟩

/-- C7 counterexample: delete note X = (id 1, title A) while note
(id 2, title a) keeps the reference `[[A]]`.  The remaining reference is
exactly `[[` ++ X.title ++ `]]`, yet it still produces an edge (2→2),
because the lowercased deleted title still resolves — to the surviving
case-variant note.  This refutes the claim that remaining references to
the deleted title produce no edge. -/
theorem delete_cleanliness_cex :
    (Note.mk "2" "a" "[[A]]" 0).content =
      "[[" ++ (Note.mk "1" "A" "" 0).title ++ "]]" ∧
    extractLinks (handleDeleteNote
        [Note.mk "1" "A" "" 0, Note.mk "2" "a" "[[A]]" 0]
        (Note.mk "1" "A" "" 0)) = [Link.mk "2" "2"] := by
  decide

/-- C7 (amended): after deleting note X, no edge of the extracted graph
targets X's former id (deletion removes every note with that id, and
every edge targets a surviving note's id); and provided no remaining
note's title equals X's title case-insensitively, the lowercased
deleted title resolves to nothing in the title map, so any remaining
reference spelling X's title produces no edge (it is left unresolved
rather than erroring). -/
theorem delete_cleanliness (notes : List Note) (X : Note) :
    (∀ e ∈ extractLinks (handleDeleteNote notes X), e.target ≠ X.id) ∧
    ((∀ Y ∈ handleDeleteNote notes X,
        jsToLower Y.title ≠ jsToLower X.title) →
      jsMapGet (titleToIdMap (handleDeleteNote notes X))
        (jsToLower X.title) = none) := by
  constructor
  · intro e he
    rcases extractLinks_target_mem _ e he with ⟨m, hm, hte⟩
    unfold handleDeleteNote at hm
    have hb := @List.of_mem_filter _ (fun n => n.id != X.id) m notes hm
    rw [hte]
    exact bne_iff_ne.1 hb
  · intro hY
    exact titleToIdMap_get_none _ _ hY

/-- C7 witness: after deleting note (id 1, title A) from a two-note set
whose other note (id 2, title B) references A, no edge targets id 1 and
A's lowercased title no longer resolves. -/
theorem delete_cleanliness_witness :
    (∀ e ∈ extractLinks (handleDeleteNote
        [Note.mk "1" "A" "" 0, Note.mk "2" "B" "[[A]]" 0]
        (Note.mk "1" "A" "" 0)), e.target ≠ (Note.mk "1" "A" "" 0).id) ∧
    jsMapGet (titleToIdMap (handleDeleteNote
        [Note.mk "1" "A" "" 0, Note.mk "2" "B" "[[A]]" 0]
        (Note.mk "1" "A" "" 0)))
      (jsToLower (Note.mk "1" "A" "" 0).title) = none :=
  ⟨(delete_cleanliness
      [Note.mk "1" "A" "" 0, Note.mk "2" "B" "[[A]]" 0]
      (Note.mk "1" "A" "" 0)).1,
    (delete_cleanliness
      [Note.mk "1" "A" "" 0, Note.mk "2" "B" "[[A]]" 0]
      (Note.mk "1" "A" "" 0)).2 (by decide)⟩

/-! ### Rename and backlinks -/

theorem filter_map_rename (notes : List Note) (f : Note → Note)
    (p q : Note → Bool) (hf : ∀ n, p (f n) = q n)
    (hkeep : ∀ n, q n = true → f n = n) :
    (notes.map f).filter p = notes.filter q := by
  induction notes with
  | nil => rfl
  | cons a l ih =>
    rw [List.map_cons, List.filter_cons, List.filter_cons, hf a]
    cases hq : q a with
    | false =>
      simp only [Bool.false_eq_true, if_false]
      exact ih
    | true =>
      simp only [if_true, hkeep a hq, ih]

/-- C6: rename consistency.  After handleRenameSubmit renames the note
with the given id (guards passed: the note exists, the trimmed new
title is non-blank and the edit differs from the old title), the
backlink listing computed for the renamed note equals the notes of the
ORIGINAL collection, other than the renamed one, whose unchanged
content contains the bracketed NEW title case-insensitively: link
resolution is by current-title lookup, so backlinks reflect the new
title immediately, with no edit to the referencing notes. -/
theorem rename_backlinks_consistent (notes : List Note)
    (noteId editTitle : String) (now : Nat) (L : Note)
    (hfind : notes.find? (fun n => n.id == noteId) = some L)
    (h1 : ¬ jsTrim editTitle = "") (h2 : ¬ editTitle = L.title) :
    backlinksOf (handleRenameSubmit notes noteId editTitle now)
        { L with title := jsTrim editTitle, lastModified := now } =
      notes.filter (fun n =>
        n.id != noteId &&
        strIncludes (jsToLower n.content)
          ("[[" ++ jsToLower (jsTrim editTitle) ++ "]]")) := by
  have hLb := @List.find?_some _ (fun n => n.id == noteId) L notes hfind
  have hLid : L.id = noteId := beq_iff_eq.1 hLb
  have hren : handleRenameSubmit notes noteId editTitle now =
      notes.map (fun n => if n.id == noteId then
        { L with title := jsTrim editTitle, lastModified := now } else n) := by
    simp only [handleRenameSubmit, hfind]
    rw [if_neg h1, if_neg h2]
  rw [hren]
  unfold backlinksOf
  apply filter_map_rename
  · intro n
    by_cases hn : (n.id == noteId) = true
    · have hne : n.id = noteId := beq_iff_eq.1 hn
      simp [hn, hne, hLid, bne_self_eq_false]
    · have hnf : (n.id == noteId) = false := by
        cases hc : (n.id == noteId) with
        | true => exact absurd hc hn
        | false => rfl
      simp only [hnf, Bool.false_eq_true, if_false]
      rw [hLid]
  · intro n hq
    rw [Bool.and_eq_true] at hq
    have hnf : (n.id == noteId) = false :=
      beq_eq_false_iff_ne.2 (bne_iff_ne.1 hq.1)
    simp only [hnf, Bool.false_eq_true, if_false]

/-- C6 witness: renaming note id 1 from A to B makes the note whose
content references B a backlink of the renamed note immediately. -/
theorem rename_backlinks_consistent_witness :
    backlinksOf
        (handleRenameSubmit
          [Note.mk "1" "A" "x" 0, Note.mk "2" "Ref" "see [[B]]" 0]
          "1" "B" 7)
        (Note.mk "1" (jsTrim "B") "x" 7) =
      [Note.mk "2" "Ref" "see [[B]]" 0] := by
  have h := rename_backlinks_consistent
    [Note.mk "1" "A" "x" 0, Note.mk "2" "Ref" "see [[B]]" 0]
    "1" "B" 7 (Note.mk "1" "A" "x" 0) (by decide) (by decide) (by decide)
  rw [h]
  decide

/-- C8: backlink definition.  For a collection with pairwise-distinct
ids containing the current note, the Editor's backlinks are exactly the
notes other than the current one whose lowercased content contains the
exact substring `[[` ++ lowercased current title ++ `]]`. -/
theorem backlinks_spec (notes : List Note) (note : Note)
    (hid : (notes.map Note.id).Nodup) (hmem : note ∈ notes) (n : Note) :
    n ∈ backlinksOf notes note ↔
      n ∈ notes ∧ n ≠ note ∧
      ("[[" ++ jsToLower note.title ++ "]]").data <:+:
        (jsToLower n.content).data := by
  unfold backlinksOf
  rw [List.mem_filter]
  constructor
  · rintro ⟨hn, hp⟩
    rw [Bool.and_eq_true] at hp
    obtain ⟨hne, hinc⟩ := hp
    refine ⟨hn, ?_, of_decide_eq_true hinc⟩
    intro he
    exact bne_iff_ne.1 hne (congrArg Note.id he)
  · rintro ⟨hn, hne, hinf⟩
    refine ⟨hn, ?_⟩
    rw [Bool.and_eq_true]
    refine ⟨bne_iff_ne.2 ?_, decide_eq_true hinf⟩
    intro he
    exact hne (List.inj_on_of_nodup_map hid hn hmem he)

/-- C8 witness: the note containing the bracketed current title (and no
other) is a backlink of the current note. -/
theorem backlinks_spec_witness :
    Note.mk "2" "Ref" "go [[Home]] now" 0 ∈
      backlinksOf
        [Note.mk "1" "Home" "" 0, Note.mk "2" "Ref" "go [[Home]] now" 0]
        (Note.mk "1" "Home" "" 0) ↔
      Note.mk "2" "Ref" "go [[Home]] now" 0 ∈
        [Note.mk "1" "Home" "" 0, Note.mk "2" "Ref" "go [[Home]] now" 0] ∧
      Note.mk "2" "Ref" "go [[Home]] now" 0 ≠ Note.mk "1" "Home" "" 0 ∧
      ("[[" ++ jsToLower (Note.mk "1" "Home" "" 0).title ++ "]]").data <:+:
        (jsToLower (Note.mk "2" "Ref" "go [[Home]] now" 0).content).data :=
  backlinks_spec
    [Note.mk "1" "Home" "" 0, Note.mk "2" "Ref" "go [[Home]] now" 0]
    (Note.mk "1" "Home" "" 0) (by decide) (by decide)
    (Note.mk "2" "Ref" "go [[Home]] now" 0)

/-- C9: local load fail-soft.  getNotesFromLocal yields the empty
collection when the storage key is absent and when the stored data does
not parse, and yields exactly the parsed collection otherwise; it is a
total function, so no error reaches the caller. -/
theorem local_load_fail_soft :
    getNotesFromLocal LocalData.absent = [] ∧
    getNotesFromLocal LocalData.corrupt = [] ∧
    ∀ ns, getNotesFromLocal (LocalData.stored ns) = ns :=
  ⟨rfl, rfl, fun _ => rfl⟩

/-! ### Local-store id uniqueness -/

theorem jsFindIndex_eq_none {α : Type} (p : α → Bool) (l : List α) :
    jsFindIndex p l = none ↔ ∀ a ∈ l, p a = false := by
  induction l with
  | nil => simp [jsFindIndex]
  | cons a l ih =>
    cases ha : p a with
    | true => simp [jsFindIndex, ha, List.forall_mem_cons]
    | false =>
      simp [jsFindIndex, ha, Option.map_eq_none', ih, List.forall_mem_cons]

theorem saveNoteToLocal_fresh (notes : List Note) (note : Note)
    (h : ∀ n ∈ notes, n.id ≠ note.id) :
    saveNoteToLocal notes note = notes ++ [note] := by
  have hfi : jsFindIndex (fun n => n.id == note.id) notes = none :=
    (jsFindIndex_eq_none _ _).2
      (fun a ha => beq_eq_false_iff_ne.2 (h a ha))
  simp only [saveNoteToLocal, hfi]

theorem saveNoteToLocal_replace (notes : List Note) (note : Note)
    (h : (notes.map Note.id).Nodup) (hex : ∃ n ∈ notes, n.id = note.id) :
    saveNoteToLocal notes note =
      notes.map (fun n => if n.id == note.id then note else n) := by
  induction notes with
  | nil => simp at hex
  | cons a l ih =>
    simp only [List.map_cons, List.nodup_cons] at h
    obtain ⟨ha, h'⟩ := h
    by_cases haid : a.id = note.id
    · have hat : (a.id == note.id) = true := beq_iff_eq.2 haid
      have hfi : jsFindIndex (fun n => n.id == note.id) (a :: l) =
          some 0 := by
        simp [jsFindIndex, hat]
      have hmap : l.map (fun n => if n.id == note.id then note else n)
          = l := by
        have hc : ∀ n ∈ l,
            (fun n => if n.id == note.id then note else n) n = id n := by
          intro n hn
          have hne : (n.id == note.id) = false := by
            apply beq_eq_false_iff_ne.2
            intro e
            refine ha ?_
            rw [haid, ← e]
            exact List.mem_map_of_mem Note.id hn
          simp [hne]
        rw [List.map_congr_left hc, List.map_id]
      simp only [saveNoteToLocal, hfi, List.set_cons_zero, List.map_cons,
        hat, if_true, hmap]
    · have haf : (a.id == note.id) = false := beq_eq_false_iff_ne.2 haid
      have hex' : ∃ n ∈ l, n.id = note.id := by
        rcases hex with ⟨n, hn, hne⟩
        rcases List.mem_cons.1 hn with he | hn'
        · exact absurd (he ▸ hne) haid
        · exact ⟨n, hn', hne⟩
      have ihe := ih h' hex'
      cases hj : jsFindIndex (fun n => n.id == note.id) l with
      | none =>
        rcases hex' with ⟨n, hn', hne⟩
        have hf := (jsFindIndex_eq_none _ l).1 hj n hn'
        rw [beq_iff_eq.2 hne] at hf
        exact absurd hf (by simp)
      | some j =>
        have hfi : jsFindIndex (fun n => n.id == note.id) (a :: l) =
            some (j + 1) := by
          simp [jsFindIndex, haf, hj]
        have hsl : saveNoteToLocal l note = l.set j note := by
          simp only [saveNoteToLocal, hj]
        simp only [saveNoteToLocal, hfi, List.set_cons_succ, List.map_cons,
          haf, Bool.false_eq_true, if_false]
        rw [← hsl]
        rw [ihe]

theorem saveNoteToLocal_nodup (notes : List Note) (note : Note)
    (h : (notes.map Note.id).Nodup) :
    ((saveNoteToLocal notes note).map Note.id).Nodup := by
  by_cases hex : ∃ n ∈ notes, n.id = note.id
  · rw [saveNoteToLocal_replace notes note h hex]
    have hids :
        (notes.map (fun n => if n.id == note.id then note else n)).map
          Note.id = notes.map Note.id := by
      rw [List.map_map]
      apply List.map_congr_left
      intro n hn
      by_cases hni : n.id = note.id
      · simp [Function.comp, beq_iff_eq.2 hni, hni]
      · simp [Function.comp, beq_eq_false_iff_ne.2 hni]
    rw [hids]
    exact h
  · push_neg at hex
    rw [saveNoteToLocal_fresh notes note hex]
    rw [List.map_append, List.nodup_append]
    refine ⟨h, by simp, ?_⟩
    intro x hx hx'
    simp only [List.map_cons, List.map_nil, List.mem_singleton] at hx'
    subst hx'
    rcases List.mem_map.1 hx with ⟨n, hn, hni⟩
    exact hex n hn hni

theorem deleteNoteFromLocal_nodup (notes : List Note) (idv : String)
    (h : (notes.map Note.id).Nodup) :
    ((deleteNoteFromLocal notes idv).map Note.id).Nodup := by
  unfold deleteNoteFromLocal
  exact List.Nodup.sublist
    (List.Sublist.map Note.id (List.filter_sublist notes)) h

/-- C10: id-uniqueness preservation.  If the stored collection has
pairwise-distinct ids, so does the collection after any
saveNoteToLocal or deleteNoteFromLocal; saveNoteToLocal replaces the
single matching entry in place (leaving every other entry unchanged)
when a matching id exists, and appends exactly when none does. -/
theorem save_delete_id_nodup (notes : List Note) (note : Note)
    (idv : String) (h : (notes.map Note.id).Nodup) :
    ((saveNoteToLocal notes note).map Note.id).Nodup ∧
    ((deleteNoteFromLocal notes idv).map Note.id).Nodup ∧
    ((∃ n ∈ notes, n.id = note.id) →
      saveNoteToLocal notes note =
        notes.map (fun n => if n.id == note.id then note else n)) ∧
    ((∀ n ∈ notes, n.id ≠ note.id) →
      saveNoteToLocal notes note = notes ++ [note]) :=
  ⟨saveNoteToLocal_nodup notes note h,
    deleteNoteFromLocal_nodup notes idv h,
    fun hex => saveNoteToLocal_replace notes note h hex,
    fun hfr => saveNoteToLocal_fresh notes note hfr⟩

/-- C10 witness: saving an updated copy of note id 1 into a two-note
store keeps ids distinct and replaces in place; deleting id 2 keeps
ids distinct. -/
theorem save_delete_id_nodup_witness :
    ((saveNoteToLocal [Note.mk "1" "A" "a" 0, Note.mk "2" "B" "b" 0]
        (Note.mk "1" "A" "new" 5)).map Note.id).Nodup ∧
    ((deleteNoteFromLocal [Note.mk "1" "A" "a" 0, Note.mk "2" "B" "b" 0]
        "2").map Note.id).Nodup ∧
    saveNoteToLocal [Note.mk "1" "A" "a" 0, Note.mk "2" "B" "b" 0]
        (Note.mk "1" "A" "new" 5) =
      [Note.mk "1" "A" "a" 0, Note.mk "2" "B" "b" 0].map
        (fun n => if n.id == (Note.mk "1" "A" "new" 5).id then
          Note.mk "1" "A" "new" 5 else n) := by
  have h := save_delete_id_nodup
    [Note.mk "1" "A" "a" 0, Note.mk "2" "B" "b" 0]
    (Note.mk "1" "A" "new" 5) "2" (by decide)
  exact ⟨h.1, h.2.1, h.2.2.1 ⟨Note.mk "1" "A" "a" 0, by decide, rfl⟩⟩

end Cognito
